import Mathlib

/-!
Verification of the histogram re-bucketing comparison logic of
`metric/distribution/regular/testdata/histogram_mappings.py`.

The Python script computes, for each histogram representation, rendering-ready
bar geometry (pairs of left edge / width, or centre / width for the sparse
representations) and a reported total mass.  All real arithmetic of the script
is modelled over `ℚ`; Python lists become `List ℚ`, `None`-able numbers become
`Option ℚ`, and the dict `{value: count}` becomes an association list built by
insertion with overwrite, exactly as Python dict comprehensions behave.
-/

namespace HistogramMappings

/-- The canonical histogram format of `plot_original_histogram`:
JSON fields `Boundaries`, `Counts`, `Min`, `Max`. -/
structure CanonicalHistogram where
  boundaries : List ℚ
  counts : List ℚ
  min_val : Option ℚ
  max_val : Option ℚ
deriving DecidableEq

/-- Reported total `total_count = sum(counts)` of `plot_original_histogram`. -/
def original_total (h : CanonicalHistogram) : ℚ := h.counts.sum

/-- The left edge of the first bucket, as computed in `plot_original_histogram`:
`min_val if min_val is not None else boundaries[0] - (boundaries[1] - boundaries[0])
if len(boundaries) > 1 else boundaries[0] - 10`. -/
def effective_min (h : CanonicalHistogram) : ℚ :=
  match h.min_val with
  | some m => m
  | none =>
      if 1 < h.boundaries.length then
        h.boundaries.getD 0 0 - (h.boundaries.getD 1 0 - h.boundaries.getD 0 0)
      else h.boundaries.getD 0 0 - 10

/-- The right edge of the last bucket (`i = len(counts) - 1`) of
`plot_original_histogram`: `max_val if max_val is not None else
boundaries[i-1] + (boundaries[i-1] - boundaries[i-2]) if len(boundaries) > 1
else boundaries[i-1] + 10`. -/
def effective_max (h : CanonicalHistogram) : ℚ :=
  let i := h.counts.length - 1
  match h.max_val with
  | some m => m
  | none =>
      if 1 < h.boundaries.length then
        h.boundaries.getD (i - 1) 0 +
          (h.boundaries.getD (i - 1) 0 - h.boundaries.getD (i - 2) 0)
      else h.boundaries.getD (i - 1) 0 + 10

/-- The `left` value assigned to bucket `i` in the loop of
`plot_original_histogram` (branches `i == 0`, `i == len(counts) - 1`, middle). -/
def bucket_left (h : CanonicalHistogram) (i : ℕ) : ℚ :=
  if i = 0 then effective_min h
  else h.boundaries.getD (i - 1) 0

/-- The `right` value assigned to bucket `i` in the loop of
`plot_original_histogram`. -/
def bucket_right (h : CanonicalHistogram) (i : ℕ) : ℚ :=
  if i = 0 then h.boundaries.getD 0 0
  else if i = h.counts.length - 1 then effective_max h
  else h.boundaries.getD i 0

/-- The `(left_edges, widths)` geometry computed by `plot_original_histogram`,
as a list of `(left_edge, width)` pairs: the no-boundary branch returns the
`[min, max]` interval when both are present and the `[-10, 10)` fallback
otherwise; the general branch runs the edge-inference loop over
`range(len(counts))` with `width = right - left`. -/
def original_histogram_bars (h : CanonicalHistogram) : List (ℚ × ℚ) :=
  if h.boundaries.isEmpty then
    match h.min_val, h.max_val with
    | some m, some M => [(m, M - m)]
    | _, _ => [(-10, 20)]
  else
    (List.range h.counts.length).map fun i =>
      (bucket_left h i, bucket_right h i - bucket_left h i)

/-- The edge sequence underlying the canonical layout in the general branch:
`edge h 0` is the first bucket's left edge, `edge h i` (for `0 < i < len(counts)`)
is `boundaries[i-1]`, and `edge h len(counts)` is the last bucket's right edge.
Proof scaffolding relating `bucket_left`/`bucket_right` to one monotone chain. -/
def edge (h : CanonicalHistogram) (i : ℕ) : ℚ :=
  if i = 0 then effective_min h
  else if i < h.counts.length then h.boundaries.getD (i - 1) 0
  else effective_max h

/-- Scenario A of the specification: boundaries `[0.3, 0.5, 0.7, 0.9, 1.1]`,
counts `[80, 120, 150, 130, 70]`, min `0.2`, max `1.2`. -/
def scenario_a : CanonicalHistogram :=
  ⟨[3/10, 5/10, 7/10, 9/10, 11/10], [80, 120, 150, 130, 70],
    some (2/10), some (12/10)⟩

/-- Modelled from the spec: §7 of the specification requires the degenerate
single-bucket fallback (no boundaries and missing min or max) to be surfaced
to the caller as a `degenerate: true` flag in the result.  The plotting script
takes the corresponding fallback branch but surfaces no result structure at
all, so the flag is modelled as exactly the condition under which
`plot_original_histogram` takes its arbitrary-range fallback branch. -/
def canonical_degenerate (h : CanonicalHistogram) : Bool :=
  h.boundaries.isEmpty && (h.min_val.isNone || h.max_val.isNone)

/-- Python `min` of a list (junk value `0` for the empty list, on which the
script never calls it). -/
def py_min : List ℚ → ℚ
  | [] => 0
  | x :: xs => xs.foldl min x

/-- Python `max` of a list (junk value `0` for the empty list). -/
def py_max : List ℚ → ℚ
  | [] => 0
  | x :: xs => xs.foldl max x

/-- Sorted keys `values = sorted(histogram.keys())` in `plot_cw_histogram_bars`. -/
def sorted_values (histogram : List (ℚ × ℚ)) : List ℚ :=
  (histogram.map Prod.fst).insertionSort (· ≤ ·)

/-- Lookup `histogram[v]` of a key in the association-list model of the
Python dict (`0` for a missing key, which never occurs for keys of the dict). -/
def dict_get (histogram : List (ℚ × ℚ)) (k : ℚ) : ℚ :=
  match histogram.find? (fun p => decide (p.1 = k)) with
  | some p => p.2
  | none => 0

/-- Count list `counts = [histogram[v] for v in values]` of `plot_cw_histogram_bars`. -/
def cw_counts (histogram : List (ℚ × ℚ)) : List ℚ :=
  (sorted_values histogram).map (dict_get histogram)

/-- Reported total `total_count = sum(counts)` of `plot_cw_histogram_bars`. -/
def cw_total (histogram : List (ℚ × ℚ)) : ℚ := (cw_counts histogram).sum

/-- Adjacent gaps `gaps = [values[i+1] - values[i] for i in range(len(values)-1)]`. -/
def value_gaps (values : List ℚ) : List ℚ :=
  (List.range (values.length - 1)).map fun i =>
    values.getD (i + 1) 0 - values.getD i 0

/-- Minimum adjacent gap `min_gap = min(gaps)`. -/
def min_gap (values : List ℚ) : ℚ := py_min (value_gaps values)

/-- Width cap `max_width = min_gap * 0.8`. -/
def max_width (values : List ℚ) : ℚ := min_gap values * (4 / 5)

/-- The width computed for bar `i` in the general (`len(values) > 1`) branch of
`plot_cw_histogram_bars`: a candidate of `left_space + right_space` (the local
half-gaps, or the distance to the domain edge for the outer bars) clamped by
`max_width`. -/
def cw_width (values : List ℚ) (histogram_min histogram_max : ℚ) (i : ℕ) : ℚ :=
  if i = 0 then
    min ((values.getD 0 0 - histogram_min) +
          (if 1 < values.length then (values.getD 1 0 - values.getD 0 0) / 2
           else histogram_max - values.getD 0 0)) (max_width values)
  else if i = values.length - 1 then
    min ((values.getD i 0 - values.getD (i - 1) 0) / 2 +
          (histogram_max - values.getD i 0)) (max_width values)
  else
    min ((values.getD i 0 - values.getD (i - 1) 0) / 2 +
          (values.getD (i + 1) 0 - values.getD i 0) / 2) (max_width values)

/-- The bar geometry of `plot_cw_histogram_bars` as `(centre, width)` pairs
(matplotlib centres each bar on its value): single-bar case uses
`width = (histogram_max - histogram_min) * 0.8`, otherwise one clamped width
per sorted value. -/
def cw_histogram_bars (histogram : List (ℚ × ℚ))
    (histogram_min histogram_max : ℚ) : List (ℚ × ℚ) :=
  let values := sorted_values histogram
  if values.length = 1 then
    [(values.getD 0 0, (histogram_max - histogram_min) * (4 / 5))]
  else
    (List.range values.length).map fun i =>
      (values.getD i 0, cw_width values histogram_min histogram_max i)

/-- Insertion of one binding into the association-list model of a Python dict:
an existing key keeps its position and gets the new value, a new key is
appended. -/
def dict_insert (d : List (ℚ × ℚ)) (k v : ℚ) : List (ℚ × ℚ) :=
  if d.any (fun p => decide (p.1 = k)) then
    d.map fun p => if p.1 = k then (k, v) else p
  else d ++ [(k, v)]

/-- Dict comprehension of `plot_all_folders_comparison` mapping `values[j]`
to `counts[j]` for `j in range(len(values))`: later bindings for a repeated
key overwrite earlier ones. -/
def build_dict (values counts : List ℚ) : List (ℚ × ℚ) :=
  (values.zip counts).foldl (fun d p => dict_insert d p.1 p.2) []

/-- One representation as seen by the global-range pass of
`plot_all_folders_comparison`: either the `original` canonical format or one
of the sparse `values`/`counts` formats. -/
inductive Rep where
  | original (h : CanonicalHistogram)
  | cw (values counts : List ℚ)

/-- The values a representation feeds into `global_min` in the first pass of
`plot_all_folders_comparison`: `min_val` when present and `min(boundaries)`
when boundaries are non-empty for the original format; `min(values)` for a
non-empty sparse file. -/
def rep_min_contribs : Rep → List ℚ
  | .original h =>
      (match h.min_val with | some m => [m] | none => []) ++
        (if h.boundaries.isEmpty then [] else [py_min h.boundaries])
  | .cw values _ => if values.isEmpty then [] else [py_min values]

/-- The values a representation feeds into `global_max` in the first pass of
`plot_all_folders_comparison`. -/
def rep_max_contribs : Rep → List ℚ
  | .original h =>
      (match h.max_val with | some m => [m] | none => []) ++
        (if h.boundaries.isEmpty then [] else [py_max h.boundaries])
  | .cw values _ => if values.isEmpty then [] else [py_max values]

/-- Accumulated `global_min` after the first pass: `none` models the untouched
`float('inf')` starting value. -/
def global_min (reps : List Rep) : Option ℚ :=
  match reps.foldr (fun r acc => rep_min_contribs r ++ acc) [] with
  | [] => none
  | x :: xs => some (xs.foldl min x)

/-- Accumulated `global_max` after the first pass: `none` models the untouched
`float('-inf')` starting value. -/
def global_max (reps : List Rep) : Option ℚ :=
  match reps.foldr (fun r acc => rep_max_contribs r ++ acc) [] with
  | [] => none
  | x :: xs => some (xs.foldl max x)

/-- The shared-axis bounds of `plot_all_folders_comparison`: when both
extrema are finite, `range_padding = (global_max - global_min) * 0.05` is
subtracted from / added to them; otherwise they are left untouched. -/
def shared_axis (reps : List Rep) : Option ℚ × Option ℚ :=
  match global_min reps, global_max reps with
  | some gmin, some gmax =>
      let range_padding := (gmax - gmin) * (5 / 100)
      (some (gmin - range_padding), some (gmax + range_padding))
  | gmin, gmax => (gmin, gmax)

/-! ### Generic helper lemmas -/

theorem foldl_min_le_seed (xs : List ℚ) (x : ℚ) : xs.foldl min x ≤ x := by
  induction xs generalizing x with
  | nil => exact le_refl x
  | cons a t ih => exact le_trans (ih (min x a)) (min_le_left x a)

theorem foldl_min_le_mem : ∀ (xs : List ℚ) (x y : ℚ), y ∈ xs → xs.foldl min x ≤ y
  | a :: t, x, y, hy => by
    rcases List.mem_cons.mp hy with h | h
    · subst h
      exact le_trans (foldl_min_le_seed t (min x y)) (min_le_right x y)
    · exact foldl_min_le_mem t (min x a) y h

theorem foldl_min_mem : ∀ (xs : List ℚ) (x : ℚ), xs.foldl min x = x ∨ xs.foldl min x ∈ xs
  | [], _ => Or.inl rfl
  | a :: t, x => by
    rcases foldl_min_mem t (min x a) with h | h
    · rcases min_choice x a with hc | hc
      · exact Or.inl (h.trans hc)
      · exact Or.inr (by rw [List.foldl_cons, h, hc]; exact List.mem_cons_self a t)
    · exact Or.inr (List.mem_cons_of_mem a h)

theorem seed_le_foldl_max (xs : List ℚ) (x : ℚ) : x ≤ xs.foldl max x := by
  induction xs generalizing x with
  | nil => exact le_refl x
  | cons a t ih => exact le_trans (le_max_left x a) (ih (max x a))

theorem mem_le_foldl_max : ∀ (xs : List ℚ) (x y : ℚ), y ∈ xs → y ≤ xs.foldl max x
  | a :: t, x, y, hy => by
    rcases List.mem_cons.mp hy with h | h
    · subst h
      exact le_trans (le_max_right x y) (seed_le_foldl_max t (max x y))
    · exact mem_le_foldl_max t (max x a) y h

theorem foldl_max_mem : ∀ (xs : List ℚ) (x : ℚ), xs.foldl max x = x ∨ xs.foldl max x ∈ xs
  | [], _ => Or.inl rfl
  | a :: t, x => by
    rcases foldl_max_mem t (max x a) with h | h
    · rcases max_choice x a with hc | hc
      · exact Or.inl (h.trans hc)
      · exact Or.inr (by rw [List.foldl_cons, h, hc]; exact List.mem_cons_self a t)
    · exact Or.inr (List.mem_cons_of_mem a h)

theorem py_min_le_mem {l : List ℚ} {y : ℚ} (hy : y ∈ l) : py_min l ≤ y := by
  cases l with
  | nil => cases hy
  | cons x xs =>
    rcases List.mem_cons.mp hy with h | h
    · subst h; exact foldl_min_le_seed xs y
    · exact foldl_min_le_mem xs x y h

theorem py_min_mem {l : List ℚ} (hl : l ≠ []) : py_min l ∈ l := by
  cases l with
  | nil => exact absurd rfl hl
  | cons x xs =>
    show xs.foldl min x ∈ x :: xs
    rcases foldl_min_mem xs x with h | h
    · rw [h]; exact List.mem_cons_self x xs
    · exact List.mem_cons_of_mem x h

theorem getD_range_map {α : Type} (f : ℕ → α) {n i : ℕ} (h : i < n) (d : α) :
    ((List.range n).map f).getD i d = f i := by
  rw [List.getD_eq_getElem?_getD, List.getElem?_map, List.getElem?_range h]
  rfl

theorem getD_mem {l : List ℚ} {i : ℕ} (h : i < l.length) (d : ℚ) : l.getD i d ∈ l := by
  rw [List.getD_eq_getElem l d h]
  exact List.getElem_mem h

theorem pairwise_getD_lt {l : List ℚ} (hp : l.Pairwise (· < ·)) {i j : ℕ}
    (hij : i < j) (hj : j < l.length) : l.getD i 0 < l.getD j 0 := by
  have hi : i < l.length := lt_trans hij hj
  rw [List.getD_eq_getElem l 0 hi, List.getD_eq_getElem l 0 hj]
  have := List.pairwise_iff_get.mp hp ⟨i, hi⟩ ⟨j, hj⟩ hij
  simpa [List.get_eq_getElem] using this

theorem le_of_adj_chain (e : ℕ → ℚ) (n : ℕ) (hadj : ∀ i, i < n → e i ≤ e (i + 1)) :
    ∀ i j, i ≤ j → j ≤ n → e i ≤ e j := by
  intro i j hij hjn
  induction j with
  | zero => rw [Nat.le_zero.mp hij]
  | succ m ih =>
    rcases Nat.lt_or_ge i (m + 1) with hlt | hge
    · exact le_trans (ih (Nat.lt_succ_iff.mp hlt) (by omega)) (hadj m (by omega))
    · rw [le_antisymm hij hge]

theorem Ico_biUnion_chain (e : ℕ → ℚ) :
    ∀ n : ℕ, (∀ i, i < n → e i ≤ e (i + 1)) →
      (⋃ i ∈ Finset.range n, Set.Ico (e i) (e (i + 1))) = Set.Ico (e 0) (e n)
  | 0, _ => by simp
  | n + 1, hadj => by
    rw [Finset.range_succ, Finset.set_biUnion_insert,
      Ico_biUnion_chain e n (fun i hi => hadj i (by omega)), Set.union_comm,
      Set.Ico_union_Ico_eq_Ico
        (le_of_adj_chain e (n + 1) hadj 0 n (by omega) (by omega))
        (hadj n (by omega))]

/-! ### Facts about the sparse layout -/

theorem sorted_values_perm (histogram : List (ℚ × ℚ)) :
    (sorted_values histogram).Perm (histogram.map Prod.fst) :=
  List.perm_insertionSort _ _

theorem sorted_values_length (histogram : List (ℚ × ℚ)) :
    (sorted_values histogram).length = histogram.length := by
  rw [(sorted_values_perm histogram).length_eq, List.length_map]

theorem sorted_values_pairwise {histogram : List (ℚ × ℚ)}
    (hnd : (histogram.map Prod.fst).Nodup) :
    (sorted_values histogram).Pairwise (· < ·) := by
  have hs : (sorted_values histogram).Sorted (· ≤ ·) :=
    List.sorted_insertionSort _ _
  exact hs.lt_of_le ((sorted_values_perm histogram).nodup_iff.mpr hnd)

theorem sorted_values_getD_bounds {histogram : List (ℚ × ℚ)} {a b : ℚ}
    (hdom : ∀ p ∈ histogram, a ≤ p.1 ∧ p.1 ≤ b) {i : ℕ}
    (hi : i < (sorted_values histogram).length) :
    a ≤ (sorted_values histogram).getD i 0 ∧ (sorted_values histogram).getD i 0 ≤ b := by
  have hmem : (sorted_values histogram).getD i 0 ∈ histogram.map Prod.fst :=
    (sorted_values_perm histogram).mem_iff.mp (getD_mem hi 0)
  obtain ⟨p, hp, hpe⟩ := List.mem_map.mp hmem
  rw [← hpe]
  exact hdom p hp

theorem length_value_gaps (l : List ℚ) : (value_gaps l).length = l.length - 1 := by
  simp [value_gaps]

theorem gap_mem_value_gaps {l : List ℚ} {i : ℕ} (h : i + 1 < l.length) :
    l.getD (i + 1) 0 - l.getD i 0 ∈ value_gaps l :=
  List.mem_map.mpr ⟨i, List.mem_range.mpr (by omega), rfl⟩

theorem min_gap_le_gap {l : List ℚ} {i : ℕ} (h : i + 1 < l.length) :
    min_gap l ≤ l.getD (i + 1) 0 - l.getD i 0 :=
  py_min_le_mem (gap_mem_value_gaps h)

theorem min_gap_pos {l : List ℚ} (hp : l.Pairwise (· < ·)) (h2 : 2 ≤ l.length) :
    0 < min_gap l := by
  have hne : value_gaps l ≠ [] := by
    intro h
    have := length_value_gaps l
    rw [h] at this
    simp at this
    omega
  obtain ⟨i, hi, heq⟩ := List.mem_map.mp
    (show py_min (value_gaps l) ∈ (List.range (l.length - 1)).map
        (fun i => l.getD (i + 1) 0 - l.getD i 0) from py_min_mem hne)
  have hi2 : i + 1 < l.length := by
    have := List.mem_range.mp hi
    omega
  rw [min_gap, ← heq]
  exact sub_pos.mpr (pairwise_getD_lt hp (Nat.lt_succ_self i) hi2)

theorem min_gap_le_diff {l : List ℚ} (hp : l.Pairwise (· < ·)) {i j : ℕ}
    (hij : i < j) (hj : j < l.length) : min_gap l ≤ l.getD j 0 - l.getD i 0 := by
  have h1 : i + 1 < l.length := by omega
  have hgap := min_gap_le_gap h1
  have hle : l.getD (i + 1) 0 ≤ l.getD j 0 := by
    rcases Nat.eq_or_lt_of_le (Nat.succ_le_of_lt hij) with he | hl2
    · subst he; exact le_refl _
    · exact le_of_lt (pairwise_getD_lt hp hl2 hj)
  linarith

theorem cw_width_le_max_width (values : List ℚ) (a b : ℚ) (i : ℕ) :
    cw_width values a b i ≤ max_width values := by
  unfold cw_width
  split_ifs <;> exact min_le_right _ _

theorem cw_bars_length (histogram : List (ℚ × ℚ)) (a b : ℚ) :
    (cw_histogram_bars histogram a b).length = histogram.length := by
  rw [← sorted_values_length histogram]
  simp only [cw_histogram_bars]
  split_ifs with h
  · rw [h]; rfl
  · simp

theorem cw_bars_getD {histogram : List (ℚ × ℚ)} {a b : ℚ}
    (hne : ¬ (sorted_values histogram).length = 1) {i : ℕ}
    (hi : i < (sorted_values histogram).length) :
    (cw_histogram_bars histogram a b).getD i (0, 0)
      = ((sorted_values histogram).getD i 0,
          cw_width (sorted_values histogram) a b i) := by
  simp only [cw_histogram_bars]
  rw [if_neg hne]
  exact getD_range_map _ hi _

/-- C1: for every sparse histogram with `n ≥ 2` distinct representative values
inside the domain `[histogram_min, histogram_max]`, the sparse layout produces
one bar per value centred at that (sorted) value, every computed width is
`≤ 0.8 * min_gap` (the minimum adjacent gap of the sorted values), and no two
bars' centred intervals overlap. -/
theorem C1_sparse_no_overlap (histogram : List (ℚ × ℚ))
    (histogram_min histogram_max : ℚ)
    (hnd : (histogram.map Prod.fst).Nodup)
    (hn : 2 ≤ histogram.length)
    (hdom : ∀ p ∈ histogram, histogram_min ≤ p.1 ∧ p.1 ≤ histogram_max) :
    (cw_histogram_bars histogram histogram_min histogram_max).length
        = histogram.length ∧
    (∀ i, i < histogram.length →
      ((cw_histogram_bars histogram histogram_min histogram_max).getD i (0, 0)).1
        = (sorted_values histogram).getD i 0) ∧
    (∀ i, i < histogram.length →
      ((cw_histogram_bars histogram histogram_min histogram_max).getD i (0, 0)).2
        ≤ min_gap (sorted_values histogram) * (4 / 5)) ∧
    (∀ i j, i < j → j < histogram.length →
      ((cw_histogram_bars histogram histogram_min histogram_max).getD i (0, 0)).1
          + ((cw_histogram_bars histogram histogram_min histogram_max).getD i (0, 0)).2 / 2
        < ((cw_histogram_bars histogram histogram_min histogram_max).getD j (0, 0)).1
          - ((cw_histogram_bars histogram histogram_min histogram_max).getD j (0, 0)).2 / 2) := by
  have hvl : (sorted_values histogram).length = histogram.length :=
    sorted_values_length histogram
  have hp : (sorted_values histogram).Pairwise (· < ·) := sorted_values_pairwise hnd
  have hne : ¬ (sorted_values histogram).length = 1 := by omega
  refine ⟨cw_bars_length _ _ _, ?_, ?_, ?_⟩
  · intro i hi
    rw [cw_bars_getD hne (by omega)]
  · intro i hi
    rw [cw_bars_getD hne (by omega)]
    exact cw_width_le_max_width _ _ _ _
  · intro i j hij hj
    rw [cw_bars_getD hne (by omega), cw_bars_getD hne (by omega)]
    have hwi := cw_width_le_max_width (sorted_values histogram) histogram_min histogram_max i
    have hwj := cw_width_le_max_width (sorted_values histogram) histogram_min histogram_max j
    have hg := min_gap_pos hp (by omega)
    have hd := min_gap_le_diff hp hij (by omega)
    rw [max_width] at hwi hwj
    dsimp only
    linarith

/-- Witness for C1 at the concrete sparse histogram
`{1 ↦ 5, 2 ↦ 3, 10 ↦ 7}` over the domain `[0, 12]`. -/
theorem C1_sparse_no_overlap_witness :
    (cw_histogram_bars [(1, 5), (2, 3), (10, 7)] 0 12).length = 3 ∧
    (∀ i, i < 3 →
      ((cw_histogram_bars [(1, 5), (2, 3), (10, 7)] 0 12).getD i (0, 0)).1
        = (sorted_values [(1, 5), (2, 3), (10, 7)]).getD i 0) ∧
    (∀ i, i < 3 →
      ((cw_histogram_bars [(1, 5), (2, 3), (10, 7)] 0 12).getD i (0, 0)).2
        ≤ min_gap (sorted_values [(1, 5), (2, 3), (10, 7)]) * (4 / 5)) ∧
    (∀ i j, i < j → j < 3 →
      ((cw_histogram_bars [(1, 5), (2, 3), (10, 7)] 0 12).getD i (0, 0)).1
          + ((cw_histogram_bars [(1, 5), (2, 3), (10, 7)] 0 12).getD i (0, 0)).2 / 2
        < ((cw_histogram_bars [(1, 5), (2, 3), (10, 7)] 0 12).getD j (0, 0)).1
          - ((cw_histogram_bars [(1, 5), (2, 3), (10, 7)] 0 12).getD j (0, 0)).2 / 2) := by
  have h := C1_sparse_no_overlap [(1, 5), (2, 3), (10, 7)] 0 12 (by decide) (by decide)
    (by
      intro p hp
      simp only [List.mem_cons, List.not_mem_nil, or_false] at hp
      rcases hp with rfl | rfl | rfl <;> exact ⟨by norm_num, by norm_num⟩)
  simpa using h

/-! ### Facts about the canonical layout -/

theorem boundaries_not_isEmpty {h : CanonicalHistogram} (hb : h.boundaries ≠ []) :
    ¬ h.boundaries.isEmpty = true := by
  simpa [List.isEmpty_iff] using hb

theorem original_bars_length {h : CanonicalHistogram} (hb : h.boundaries ≠ []) :
    (original_histogram_bars h).length = h.counts.length := by
  simp only [original_histogram_bars]
  rw [if_neg (boundaries_not_isEmpty hb)]
  simp

theorem original_bars_getD {h : CanonicalHistogram} (hb : h.boundaries ≠ []) {i : ℕ}
    (hi : i < h.counts.length) :
    (original_histogram_bars h).getD i (0, 0)
      = (bucket_left h i, bucket_right h i - bucket_left h i) := by
  simp only [original_histogram_bars]
  rw [if_neg (boundaries_not_isEmpty hb)]
  exact getD_range_map _ hi _

theorem bucket_left_eq_edge {h : CanonicalHistogram} {i : ℕ} (hi : i < h.counts.length) :
    bucket_left h i = edge h i := by
  unfold bucket_left edge
  by_cases h0 : i = 0
  · simp [h0]
  · rw [if_neg h0, if_neg h0, if_pos hi]

theorem bucket_right_eq_edge {h : CanonicalHistogram}
    (hk : 1 ≤ h.boundaries.length) (hshape : h.counts.length = h.boundaries.length + 1)
    {i : ℕ} (hi : i < h.counts.length) :
    bucket_right h i = edge h (i + 1) := by
  unfold bucket_right edge
  by_cases h0 : i = 0
  · subst h0
    rw [if_pos rfl, if_neg (by omega), if_pos (by omega)]
  · by_cases hlast : i = h.counts.length - 1
    · rw [if_neg h0, if_pos hlast, if_neg (by omega), if_neg (by omega)]
    · rw [if_neg h0, if_neg hlast, if_neg (by omega), if_pos (by omega)]
      norm_num

theorem edge_step {h : CanonicalHistogram}
    (hk : 1 ≤ h.boundaries.length) (hshape : h.counts.length = h.boundaries.length + 1)
    (hpw : h.boundaries.Pairwise (· < ·))
    (hmin : ∀ m, h.min_val = some m → m ≤ h.boundaries.getD 0 0)
    (hmax : ∀ M, h.max_val = some M →
      h.boundaries.getD (h.boundaries.length - 1) 0 ≤ M) :
    ∀ i, i < h.counts.length → edge h i ≤ edge h (i + 1) := by
  intro i hi
  unfold edge
  by_cases h0 : i = 0
  · subst h0
    rw [if_pos rfl, if_neg (by omega), if_pos (by omega)]
    unfold effective_min
    cases hmv : h.min_val with
    | some m => simpa using hmin m hmv
    | none =>
      simp only
      split_ifs with hk2
      · have hlt := pairwise_getD_lt hpw (show 0 < 1 by omega) hk2
        simp only [Nat.sub_self]
        linarith
      · simp only [Nat.sub_self]
        linarith
  · rw [if_neg h0, if_pos hi, if_neg (by omega)]
    by_cases hlast : i + 1 < h.counts.length
    · rw [if_pos hlast]
      have h1 : i + 1 - 1 = i := by omega
      rw [h1]
      have hib : i < h.boundaries.length := by omega
      exact le_of_lt (pairwise_getD_lt hpw (by omega) hib)
    · rw [if_neg hlast]
      have hieq : i = h.counts.length - 1 := by omega
      unfold effective_max
      cases hmv : h.max_val with
      | some M =>
        simp only
        have : i - 1 = h.boundaries.length - 1 := by omega
        rw [hieq, hshape]
        have h2 : h.boundaries.length + 1 - 1 - 1 = h.boundaries.length - 1 := by omega
        rw [h2]
        exact hmax M hmv
      | none =>
        simp only
        split_ifs with hk2
        · have h2 : h.counts.length - 1 - 1 = i - 1 := by omega
          have h3 : h.counts.length - 1 - 2 < h.counts.length - 1 - 1 := by omega
          have h4 : h.counts.length - 1 - 1 < h.boundaries.length := by omega
          have hlt := pairwise_getD_lt hpw h3 h4
          rw [h2] at hlt ⊢
          linarith
        · have h2 : h.counts.length - 1 - 1 = i - 1 := by omega
          rw [h2]
          linarith

theorem edge_zero (h : CanonicalHistogram) : edge h 0 = effective_min h := by
  rw [edge, if_pos rfl]

theorem edge_top (h : CanonicalHistogram) (h0 : 0 < h.counts.length) :
    edge h h.counts.length = effective_max h := by
  rw [edge, if_neg (by omega), if_neg (by omega)]

/-- C2: for every well-formed canonical histogram with `k ≥ 1` strictly
increasing boundaries and `k + 1` counts, edge inference produces exactly
`k + 1` intervals which are gap-free (each bar's right edge is the next bar's
left edge), have non-negative widths, are pairwise non-overlapping, and whose
union (of the half-open rendering intervals) is
`[effective_min, effective_max)`. -/
theorem C2_canonical_partition (h : CanonicalHistogram)
    (hk : 1 ≤ h.boundaries.length)
    (hshape : h.counts.length = h.boundaries.length + 1)
    (hchain : h.boundaries.Chain' (· < ·))
    (hmin : ∀ m, h.min_val = some m → m ≤ h.boundaries.getD 0 0)
    (hmax : ∀ M, h.max_val = some M →
      h.boundaries.getD (h.boundaries.length - 1) 0 ≤ M) :
    (original_histogram_bars h).length = h.boundaries.length + 1 ∧
    (∀ i, i + 1 < h.boundaries.length + 1 →
      ((original_histogram_bars h).getD (i + 1) (0, 0)).1
        = ((original_histogram_bars h).getD i (0, 0)).1
            + ((original_histogram_bars h).getD i (0, 0)).2) ∧
    (∀ i, i < h.boundaries.length + 1 →
      0 ≤ ((original_histogram_bars h).getD i (0, 0)).2) ∧
    (∀ i j, i < j → j < h.boundaries.length + 1 →
      ((original_histogram_bars h).getD i (0, 0)).1
          + ((original_histogram_bars h).getD i (0, 0)).2
        ≤ ((original_histogram_bars h).getD j (0, 0)).1) ∧
    (⋃ i ∈ Finset.range (h.boundaries.length + 1),
        Set.Ico (((original_histogram_bars h).getD i (0, 0)).1)
          (((original_histogram_bars h).getD i (0, 0)).1
            + ((original_histogram_bars h).getD i (0, 0)).2))
      = Set.Ico (effective_min h) (effective_max h) := by
  have hb : h.boundaries ≠ [] := by
    intro he
    rw [he] at hk
    simp at hk
  have hpw : h.boundaries.Pairwise (· < ·) := List.chain'_iff_pairwise.mp hchain
  have hstep := edge_step hk hshape hpw hmin hmax
  have hgetD : ∀ i, i < h.counts.length →
      (original_histogram_bars h).getD i (0, 0) = (edge h i, edge h (i + 1) - edge h i) := by
    intro i hi
    rw [original_bars_getD hb hi, bucket_left_eq_edge hi, bucket_right_eq_edge hk hshape hi]
  refine ⟨by rw [original_bars_length hb, hshape], ?_, ?_, ?_, ?_⟩
  · intro i hi
    rw [hgetD (i + 1) (by omega), hgetD i (by omega)]
    dsimp only
    ring
  · intro i hi
    rw [hgetD i (by omega)]
    dsimp only
    have := hstep i (by omega)
    linarith
  · intro i j hij hj
    rw [hgetD i (by omega), hgetD j (by omega)]
    dsimp only
    have hadj : edge h (i + 1) ≤ edge h j :=
      le_of_adj_chain (edge h) h.counts.length hstep (i + 1) j (by omega) (by omega)
    linarith
  · have hcongr : (⋃ i ∈ Finset.range (h.boundaries.length + 1),
        Set.Ico (((original_histogram_bars h).getD i (0, 0)).1)
          (((original_histogram_bars h).getD i (0, 0)).1
            + ((original_histogram_bars h).getD i (0, 0)).2))
        = ⋃ i ∈ Finset.range (h.counts.length), Set.Ico (edge h i) (edge h (i + 1)) := by
      rw [hshape]
      apply Set.iUnion_congr
      intro i
      apply Set.iUnion_congr
      intro hi
      have hi2 : i < h.counts.length := by
        rw [hshape]
        exact Finset.mem_range.mp hi
      rw [hgetD i hi2]
      dsimp only
      congr 1
      ring
    rw [hcongr, Ico_biUnion_chain (edge h) h.counts.length hstep, edge_zero,
      edge_top h (by omega)]

/-- Witness for C2 at the concrete canonical histogram with boundaries
`[1, 2]`, counts `[3, 4, 5]`, min `0`, max `6`. -/
theorem C2_canonical_partition_witness :
    (original_histogram_bars ⟨[1, 2], [3, 4, 5], some 0, some 6⟩).length = 3 ∧
    (∀ i, i + 1 < 3 →
      ((original_histogram_bars ⟨[1, 2], [3, 4, 5], some 0, some 6⟩).getD (i + 1) (0, 0)).1
        = ((original_histogram_bars ⟨[1, 2], [3, 4, 5], some 0, some 6⟩).getD i (0, 0)).1
            + ((original_histogram_bars ⟨[1, 2], [3, 4, 5], some 0, some 6⟩).getD i (0, 0)).2) ∧
    (∀ i, i < 3 →
      0 ≤ ((original_histogram_bars ⟨[1, 2], [3, 4, 5], some 0, some 6⟩).getD i (0, 0)).2) ∧
    (∀ i j, i < j → j < 3 →
      ((original_histogram_bars ⟨[1, 2], [3, 4, 5], some 0, some 6⟩).getD i (0, 0)).1
          + ((original_histogram_bars ⟨[1, 2], [3, 4, 5], some 0, some 6⟩).getD i (0, 0)).2
        ≤ ((original_histogram_bars ⟨[1, 2], [3, 4, 5], some 0, some 6⟩).getD j (0, 0)).1) ∧
    (⋃ i ∈ Finset.range 3,
        Set.Ico (((original_histogram_bars ⟨[1, 2], [3, 4, 5], some 0, some 6⟩).getD i (0, 0)).1)
          (((original_histogram_bars ⟨[1, 2], [3, 4, 5], some 0, some 6⟩).getD i (0, 0)).1
            + ((original_histogram_bars ⟨[1, 2], [3, 4, 5], some 0, some 6⟩).getD i (0, 0)).2))
      = Set.Ico (effective_min ⟨[1, 2], [3, 4, 5], some 0, some 6⟩)
          (effective_max ⟨[1, 2], [3, 4, 5], some 0, some 6⟩) := by
  have h := C2_canonical_partition ⟨[1, 2], [3, 4, 5], some 0, some 6⟩
    (by decide) (by decide) (by norm_num [List.chain'_cons, List.chain'_singleton])
    (by intro m hm; cases hm; decide)
    (by intro M hM; cases hM; decide)
  simpa using h

/-- C5: with `n = len(counts) ≥ 2` buckets and `n - 1` boundaries, the first
bucket runs from `min` (when present, else the extrapolated value) to
`boundaries[0]`, and the last bucket runs from `boundaries[n-2]` to `max`
(when present, else the extrapolated value). -/
theorem C5_first_last_buckets (h : CanonicalHistogram)
    (hshape : h.counts.length = h.boundaries.length + 1)
    (hn : 2 ≤ h.counts.length) :
    ((original_histogram_bars h).getD 0 (0, 0)).1
        = (match h.min_val with
           | some m => m
           | none =>
               if 1 < h.boundaries.length then
                 h.boundaries.getD 0 0 - (h.boundaries.getD 1 0 - h.boundaries.getD 0 0)
               else h.boundaries.getD 0 0 - 10) ∧
    ((original_histogram_bars h).getD 0 (0, 0)).1
        + ((original_histogram_bars h).getD 0 (0, 0)).2 = h.boundaries.getD 0 0 ∧
    ((original_histogram_bars h).getD (h.counts.length - 1) (0, 0)).1
        = h.boundaries.getD (h.counts.length - 2) 0 ∧
    ((original_histogram_bars h).getD (h.counts.length - 1) (0, 0)).1
        + ((original_histogram_bars h).getD (h.counts.length - 1) (0, 0)).2
        = (match h.max_val with
           | some M => M
           | none =>
               if 1 < h.boundaries.length then
                 h.boundaries.getD (h.counts.length - 2) 0
                   + (h.boundaries.getD (h.counts.length - 2) 0
                       - h.boundaries.getD (h.counts.length - 3) 0)
               else h.boundaries.getD (h.counts.length - 2) 0 + 10) := by
  have hb : h.boundaries ≠ [] := by
    intro he
    rw [he] at hshape
    simp at hshape
    omega
  have h0 := original_bars_getD hb (show 0 < h.counts.length by omega)
  have hl := original_bars_getD hb (show h.counts.length - 1 < h.counts.length by omega)
  refine ⟨?_, ?_, ?_, ?_⟩
  · rw [h0]
    dsimp only
    rw [bucket_left, if_pos rfl, effective_min]
  · rw [h0]
    dsimp only
    rw [bucket_right, if_pos rfl]
    ring
  · rw [hl]
    dsimp only
    rw [bucket_left, if_neg (by omega)]
    have h1 : h.counts.length - 1 - 1 = h.counts.length - 2 := by omega
    rw [h1]
  · rw [hl]
    dsimp only
    have hsub : ((bucket_left h (h.counts.length - 1)) : ℚ)
        + (bucket_right h (h.counts.length - 1) - bucket_left h (h.counts.length - 1))
        = bucket_right h (h.counts.length - 1) := by ring
    rw [hsub, bucket_right, if_neg (by omega), if_pos rfl, effective_max]
    have h1 : h.counts.length - 1 - 1 = h.counts.length - 2 := by omega
    have h2 : h.counts.length - 1 - 2 = h.counts.length - 3 := by omega
    rw [h1, h2]

/-- Witness for C5 at the canonical histogram with boundaries `[1, 2, 4]` and
counts `[3, 4, 5, 6]`, min and max absent (exercising the extrapolation). -/
theorem C5_first_last_buckets_witness :
    ((original_histogram_bars ⟨[1, 2, 4], [3, 4, 5, 6], none, none⟩).getD 0 (0, 0)).1
        = (match (none : Option ℚ) with
           | some m => m
           | none =>
               if 1 < ([1, 2, 4] : List ℚ).length then
                 ([1, 2, 4] : List ℚ).getD 0 0
                   - (([1, 2, 4] : List ℚ).getD 1 0 - ([1, 2, 4] : List ℚ).getD 0 0)
               else ([1, 2, 4] : List ℚ).getD 0 0 - 10) ∧
    ((original_histogram_bars ⟨[1, 2, 4], [3, 4, 5, 6], none, none⟩).getD 0 (0, 0)).1
        + ((original_histogram_bars ⟨[1, 2, 4], [3, 4, 5, 6], none, none⟩).getD 0 (0, 0)).2
        = ([1, 2, 4] : List ℚ).getD 0 0 ∧
    ((original_histogram_bars ⟨[1, 2, 4], [3, 4, 5, 6], none, none⟩).getD 3 (0, 0)).1
        = ([1, 2, 4] : List ℚ).getD 2 0 ∧
    ((original_histogram_bars ⟨[1, 2, 4], [3, 4, 5, 6], none, none⟩).getD 3 (0, 0)).1
        + ((original_histogram_bars ⟨[1, 2, 4], [3, 4, 5, 6], none, none⟩).getD 3 (0, 0)).2
        = (match (none : Option ℚ) with
           | some M => M
           | none =>
               if 1 < ([1, 2, 4] : List ℚ).length then
                 ([1, 2, 4] : List ℚ).getD 2 0
                   + (([1, 2, 4] : List ℚ).getD 2 0 - ([1, 2, 4] : List ℚ).getD 1 0)
               else ([1, 2, 4] : List ℚ).getD 2 0 + 10) := by
  have h := C5_first_last_buckets ⟨[1, 2, 4], [3, 4, 5, 6], none, none⟩ (by decide) (by decide)
  simpa using h

/-- C10: the canonical bar geometry depends only on the boundaries, min, max
and the number of buckets; the count values themselves never enter it. -/
theorem C10_geometry_ignores_counts (h1 h2 : CanonicalHistogram)
    (hb : h1.boundaries = h2.boundaries) (hmn : h1.min_val = h2.min_val)
    (hmx : h1.max_val = h2.max_val) (hlen : h1.counts.length = h2.counts.length) :
    original_histogram_bars h1 = original_histogram_bars h2 := by
  unfold original_histogram_bars bucket_left bucket_right effective_min effective_max
  rw [hb, hmn, hmx, hlen]

/-- Witness for C10: two canonical histograms equal except for their count
values produce identical geometry. -/
theorem C10_geometry_ignores_counts_witness :
    original_histogram_bars ⟨[1, 2], [5, 6, 7], none, none⟩
      = original_histogram_bars ⟨[1, 2], [80, 0, 400], none, none⟩ :=
  C10_geometry_ignores_counts _ _ rfl rfl rfl rfl

/-! ### Mass conservation (C3) -/

theorem dict_get_cons_self (k v : ℚ) (t : List (ℚ × ℚ)) :
    dict_get ((k, v) :: t) k = v := by
  unfold dict_get
  rw [List.find?_cons_of_pos _ (by simp)]

theorem dict_get_cons_ne (k v x : ℚ) (t : List (ℚ × ℚ)) (hx : x ≠ k) :
    dict_get ((k, v) :: t) x = dict_get t x := by
  unfold dict_get
  rw [List.find?_cons_of_neg _ (by simp [Ne.symm hx])]

theorem map_dict_get_keys : ∀ (l : List (ℚ × ℚ)), (l.map Prod.fst).Nodup →
    (l.map Prod.fst).map (dict_get l) = l.map Prod.snd
  | [], _ => rfl
  | (k, v) :: t, hnd => by
    have hnd' : (k :: t.map Prod.fst).Nodup := by simpa using hnd
    have hnd2 := List.nodup_cons.mp hnd'
    simp only [List.map_cons]
    rw [dict_get_cons_self]
    congr 1
    rw [List.map_congr_left
      (fun x hx => dict_get_cons_ne k v x t (by rintro rfl; exact hnd2.1 hx))]
    exact map_dict_get_keys t hnd2.2

/-- C3: the reported total mass of each representation is the arithmetic sum
of the input counts: the canonical total is literally `sum(counts)`, and the
sparse total (a sum of dict lookups over the sorted keys) equals the sum of
the dict's count values; neither depends on any geometry computation. -/
theorem C3_mass_conservation (h : CanonicalHistogram) (histogram : List (ℚ × ℚ))
    (hnd : (histogram.map Prod.fst).Nodup) :
    original_total h = h.counts.sum ∧
    cw_total histogram = (histogram.map Prod.snd).sum := by
  refine ⟨rfl, ?_⟩
  unfold cw_total cw_counts
  have hperm : ((sorted_values histogram).map (dict_get histogram)).Perm
      ((histogram.map Prod.fst).map (dict_get histogram)) :=
    (sorted_values_perm histogram).map _
  rw [hperm.sum_eq, map_dict_get_keys histogram hnd]

/-- Witness for C3 at a concrete canonical histogram and a concrete sparse
histogram with unsorted keys. -/
theorem C3_mass_conservation_witness :
    original_total ⟨[1, 2], [3, 4, 5], none, none⟩ = ([3, 4, 5] : List ℚ).sum ∧
    cw_total [(2, 7), (1, 5)] = (([(2, 7), (1, 5)] : List (ℚ × ℚ)).map Prod.snd).sum :=
  C3_mass_conservation ⟨[1, 2], [3, 4, 5], none, none⟩ [(2, 7), (1, 5)] (by decide)

/-! ### Scenario A (C4) -/

/-- C4 counterexample: on Scenario A (five boundaries and five counts) the
last computed interval is `[0.9, 1.2)` of width `0.3` — not `[1.1, 1.2)` of
width `0.1` as the claim states: with five counts the loop's last bucket
spans from `boundaries[3] = 0.9` to `max = 1.2`, and `boundaries[4] = 1.1`
is never used. -/
theorem C4_scenario_a_counterexample :
    (original_histogram_bars scenario_a).getD 4 (0, 0) ≠ (11/10, 1/10) := by
  simp only [scenario_a, original_histogram_bars, bucket_left, bucket_right,
    effective_min, effective_max]
  norm_num [List.range_succ]

/-- C4 amended: Scenario A produces 5 intervals, the first being `[0.2, 0.3)`
of width `0.1`, the last being `[0.9, 1.2)` of width `0.3`, with total mass
`550`. -/
theorem C4_scenario_a :
    original_histogram_bars scenario_a
      = [(1/5, 1/10), (3/10, 1/5), (1/2, 1/5), (7/10, 1/5), (9/10, 3/10)] ∧
    original_total scenario_a = 550 := by
  constructor
  · simp only [scenario_a, original_histogram_bars, bucket_left, bucket_right,
      effective_min, effective_max]
    norm_num [List.range_succ]
  · norm_num [original_total, scenario_a]

/-! ### Degenerate fallback (C7) -/

/-- C7: the canonical histogram with counts `[42]`, no boundaries and absent
min/max does not fail: it yields the fallback interval `[-10, 10)` (left edge
`-10`, width `20`) and the degenerate condition holds. -/
theorem C7_degenerate_fallback :
    original_histogram_bars ⟨[], [42], none, none⟩ = [(-10, 20)] ∧
    canonical_degenerate ⟨[], [42], none, none⟩ = true :=
  ⟨rfl, rfl⟩

/-! ### Duplicate representative values (C6) -/

/-- C6 counterexample: feeding the duplicate value `2` (counts `3` then `4`)
through the dict construction silently collapses the duplicates — the layout
then succeeds and produces a two-bar geometry instead of failing, and the
reported mass drops from `12` to `9`. -/
theorem C6_duplicate_counterexample :
    build_dict [1, 2, 2] [5, 3, 4] = [(1, 5), (2, 4)] ∧
    cw_histogram_bars (build_dict [1, 2, 2] [5, 3, 4]) 1 2 = [(1, 1/2), (2, 1/2)] ∧
    cw_total (build_dict [1, 2, 2] [5, 3, 4]) = 9 := by
  have hd : build_dict [1, 2, 2] [5, 3, 4] = [(1, 5), (2, 4)] := by
    norm_num [build_dict, dict_insert, List.zip]
  refine ⟨hd, ?_, ?_⟩
  · rw [hd]
    simp only [cw_histogram_bars, sorted_values, cw_width, max_width, min_gap,
      value_gaps, py_min]
    norm_num [List.range_succ, List.insertionSort, List.orderedInsert]
  · rw [hd]
    norm_num [cw_total, cw_counts, sorted_values, dict_get, List.insertionSort,
      List.orderedInsert, List.find?]

theorem dict_insert_keys_nodup (d : List (ℚ × ℚ)) (k v : ℚ)
    (hd : (d.map Prod.fst).Nodup) : ((dict_insert d k v).map Prod.fst).Nodup := by
  unfold dict_insert
  split_ifs with hmem
  · have hkeys : (d.map fun p => if p.1 = k then (k, v) else p).map Prod.fst
        = d.map Prod.fst := by
      rw [List.map_map]
      apply List.map_congr_left
      intro p _
      by_cases hpk : p.1 = k
      · simp [hpk]
      · simp [hpk]
    rw [hkeys]
    exact hd
  · have hk : k ∉ d.map Prod.fst := by
      intro hkm
      obtain ⟨p, hp, hpe⟩ := List.mem_map.mp hkm
      exact hmem (List.any_eq_true.mpr ⟨p, hp, by simp [hpe]⟩)
    rw [List.map_append]
    refine List.Nodup.append hd (List.nodup_singleton k) ?_
    intro x hx hx2
    rw [List.mem_singleton.mp hx2] at hx
    exact hk hx

theorem build_dict_keys_nodup (values counts : List ℚ) :
    ((build_dict values counts).map Prod.fst).Nodup := by
  unfold build_dict
  generalize values.zip counts = l
  suffices hgen : ∀ (l d : List (ℚ × ℚ)), (d.map Prod.fst).Nodup →
      ((l.foldl (fun d p => dict_insert d p.1 p.2) d).map Prod.fst).Nodup by
    exact hgen l [] (by simp)
  intro l
  induction l with
  | nil => exact fun d hd => hd
  | cons p t ih => exact fun d hd => ih _ (dict_insert_keys_nodup d p.1 p.2 hd)

/-- C6 amended: duplicate representative values are silently collapsed when
the value-to-count dict is built (a later count for a repeated value
overwrites the earlier one), and layout then proceeds, producing one bar per
distinct value rather than failing. -/
theorem C6_duplicates_collapse (values counts : List ℚ)
    (histogram_min histogram_max : ℚ) :
    ((build_dict values counts).map Prod.fst).Nodup ∧
    (cw_histogram_bars (build_dict values counts) histogram_min histogram_max).length
      = (build_dict values counts).length :=
  ⟨build_dict_keys_nodup values counts, cw_bars_length _ _ _⟩

/-! ### Shared-axis reconciliation (C8) -/

/-- C8: whenever both global extrema are finite, the shared axis bounds are
the least collected minimum minus the padding and the greatest collected
maximum plus the padding, with `padding = 0.05 * (global_max - global_min)`. -/
theorem C8_shared_axis (reps : List Rep) (a b : ℚ)
    (ha : global_min reps = some a) (hb : global_max reps = some b) :
    shared_axis reps
        = (some (a - (b - a) * (5 / 100)), some (b + (b - a) * (5 / 100))) ∧
    a ∈ reps.foldr (fun r acc => rep_min_contribs r ++ acc) [] ∧
    (∀ x ∈ reps.foldr (fun r acc => rep_min_contribs r ++ acc) [], a ≤ x) ∧
    b ∈ reps.foldr (fun r acc => rep_max_contribs r ++ acc) [] ∧
    (∀ x ∈ reps.foldr (fun r acc => rep_max_contribs r ++ acc) [], x ≤ b) := by
  refine ⟨by rw [shared_axis, ha, hb], ?_⟩
  unfold global_min at ha
  unfold global_max at hb
  revert ha hb
  cases hc : reps.foldr (fun r acc => rep_min_contribs r ++ acc) [] with
  | nil => intro ha; cases ha
  | cons x xs =>
    cases hcx : reps.foldr (fun r acc => rep_max_contribs r ++ acc) [] with
    | nil => intro _ hb; cases hb
    | cons y ys =>
      intro ha hb
      injection ha with ha2
      injection hb with hb2
      subst ha2
      subst hb2
      refine ⟨?_, ?_, ?_, ?_⟩
      · rcases foldl_min_mem xs x with h | h
        · rw [h]
          exact List.mem_cons_self x xs
        · exact List.mem_cons_of_mem x h
      · intro z hz
        rcases List.mem_cons.mp hz with h | h
        · rw [h]
          exact foldl_min_le_seed xs x
        · exact foldl_min_le_mem xs x z h
      · rcases foldl_max_mem ys y with h | h
        · rw [h]
          exact List.mem_cons_self y ys
        · exact List.mem_cons_of_mem y h
      · intro z hz
        rcases List.mem_cons.mp hz with h | h
        · rw [h]
          exact seed_le_foldl_max ys y
        · exact mem_le_foldl_max ys y z h

/-- Witness for C8 at one sparse representation with values `[1, 3]`. -/
theorem C8_shared_axis_witness :
    shared_axis [Rep.cw [1, 3] [2, 4]]
        = (some (1 - (3 - 1) * (5 / 100)), some (3 + (3 - 1) * (5 / 100))) ∧
    (1 : ℚ) ∈ [Rep.cw [1, 3] [2, 4]].foldr (fun r acc => rep_min_contribs r ++ acc) [] ∧
    (∀ x ∈ [Rep.cw [1, 3] [2, 4]].foldr (fun r acc => rep_min_contribs r ++ acc) [],
      (1 : ℚ) ≤ x) ∧
    (3 : ℚ) ∈ [Rep.cw [1, 3] [2, 4]].foldr (fun r acc => rep_max_contribs r ++ acc) [] ∧
    (∀ x ∈ [Rep.cw [1, 3] [2, 4]].foldr (fun r acc => rep_max_contribs r ++ acc) [],
      x ≤ (3 : ℚ)) :=
  C8_shared_axis [Rep.cw [1, 3] [2, 4]] 1 3
    (by norm_num [global_min, rep_min_contribs, py_min, List.isEmpty])
    (by norm_num [global_max, rep_max_contribs, py_max, List.isEmpty])

/-! ### Width non-negativity (C9) -/

/-- C9 counterexample: the canonical histogram with no boundaries, counts
`[1]`, `min = 5` and `max = 3` satisfies the claim's stated well-formedness
conditions vacuously (there are no boundaries), yet its single computed width
is `max - min = -2 < 0`. -/
theorem C9_negative_width_counterexample :
    ((original_histogram_bars ⟨[], [1], some 5, some 3⟩).getD 0 (0, 0)).2 < 0 := by
  norm_num [original_histogram_bars]

theorem cw_width_nonneg {histogram : List (ℚ × ℚ)} {a b : ℚ}
    (hnd : (histogram.map Prod.fst).Nodup)
    (hdom : ∀ p ∈ histogram, a ≤ p.1 ∧ p.1 ≤ b)
    (h2 : 2 ≤ (sorted_values histogram).length) {i : ℕ}
    (hi : i < (sorted_values histogram).length) :
    0 ≤ cw_width (sorted_values histogram) a b i := by
  have hp : (sorted_values histogram).Pairwise (· < ·) := sorted_values_pairwise hnd
  have hgap : 0 < min_gap (sorted_values histogram) := min_gap_pos hp h2
  have hmw : 0 ≤ max_width (sorted_values histogram) := by
    have := mul_pos hgap (show (0 : ℚ) < 4 / 5 by norm_num)
    rw [max_width]
    linarith
  unfold cw_width
  by_cases h0 : i = 0
  · rw [if_pos h0, if_pos (show 1 < (sorted_values histogram).length by omega)]
    refine le_min ?_ hmw
    have hb0 := sorted_values_getD_bounds hdom (show 0 < (sorted_values histogram).length by omega)
    have hlt := pairwise_getD_lt hp (show 0 < 1 by omega) h2
    linarith [hb0.1]
  · by_cases hlast : i = (sorted_values histogram).length - 1
    · rw [if_neg h0, if_pos hlast]
      refine le_min ?_ hmw
      have hbi := sorted_values_getD_bounds hdom hi
      have hlt := pairwise_getD_lt hp (show i - 1 < i by omega) hi
      linarith [hbi.2]
    · rw [if_neg h0, if_neg hlast]
      refine le_min ?_ hmw
      have hlt1 := pairwise_getD_lt hp (show i - 1 < i by omega) hi
      have hlt2 := pairwise_getD_lt hp (show i < i + 1 by omega) (show i + 1 < (sorted_values histogram).length by omega)
      linarith

theorem original_widths_nonneg (h : CanonicalHistogram)
    (hchain : h.boundaries.Chain' (· < ·))
    (hshape : h.boundaries ≠ [] → h.counts.length = h.boundaries.length + 1)
    (hmin : ∀ m, h.min_val = some m → h.boundaries ≠ [] → m ≤ h.boundaries.getD 0 0)
    (hmax : ∀ M, h.max_val = some M → h.boundaries ≠ [] →
      h.boundaries.getD (h.boundaries.length - 1) 0 ≤ M)
    (hmm : ∀ m M, h.min_val = some m → h.max_val = some M → m ≤ M) :
    ∀ i, i < (original_histogram_bars h).length →
      0 ≤ ((original_histogram_bars h).getD i (0, 0)).2 := by
  by_cases hb : h.boundaries = []
  · intro i hi
    have hemp : h.boundaries.isEmpty = true := by simp [hb]
    simp only [original_histogram_bars, if_pos hemp] at hi ⊢
    rcases hmv : h.min_val with _ | m <;> rcases hMv : h.max_val with _ | M <;>
        simp only [hmv, hMv] at hi ⊢ <;>
      [skip; skip; skip; skip] <;>
      (first
        | (have hi0 : i = 0 := by simp at hi; omega
           subst hi0
           show (0 : ℚ) ≤ 20
           norm_num)
        | (have hi0 : i = 0 := by simp at hi; omega
           subst hi0
           have hmM := hmm m M hmv hMv
           show (0 : ℚ) ≤ M - m
           linarith))
  · have hk : 1 ≤ h.boundaries.length := List.length_pos.mpr hb
    have hshape2 := hshape hb
    have hpw := List.chain'_iff_pairwise.mp hchain
    have hstep := edge_step hk hshape2 hpw (fun m hm => hmin m hm hb)
      (fun M hM => hmax M hM hb)
    intro i hi
    rw [original_bars_length hb] at hi
    rw [original_bars_getD hb hi, bucket_left_eq_edge hi,
      bucket_right_eq_edge hk hshape2 hi]
    dsimp only
    have := hstep i hi
    linarith

/-- C9 amended: for every well-formed input — canonical histogram with
strictly increasing boundaries, the data-model shape, `min ≤ boundaries[0]`
and `max ≥` last boundary when present, and additionally `min ≤ max` when
both are present (needed for the boundary-free single-bucket case); sparse
histogram with distinct values inside `[domain_min, domain_max]` — every
computed width in both layouts is non-negative. -/
theorem C9_widths_nonneg (h : CanonicalHistogram) (histogram : List (ℚ × ℚ))
    (domain_min domain_max : ℚ)
    (hchain : h.boundaries.Chain' (· < ·))
    (hshape : h.boundaries ≠ [] → h.counts.length = h.boundaries.length + 1)
    (hmin : ∀ m, h.min_val = some m → h.boundaries ≠ [] → m ≤ h.boundaries.getD 0 0)
    (hmax : ∀ M, h.max_val = some M → h.boundaries ≠ [] →
      h.boundaries.getD (h.boundaries.length - 1) 0 ≤ M)
    (hmm : ∀ m M, h.min_val = some m → h.max_val = some M → m ≤ M)
    (hnd : (histogram.map Prod.fst).Nodup)
    (hdom : ∀ p ∈ histogram, domain_min ≤ p.1 ∧ p.1 ≤ domain_max) :
    (∀ i, i < (original_histogram_bars h).length →
      0 ≤ ((original_histogram_bars h).getD i (0, 0)).2) ∧
    (∀ i, i < (cw_histogram_bars histogram domain_min domain_max).length →
      0 ≤ ((cw_histogram_bars histogram domain_min domain_max).getD i (0, 0)).2) := by
  refine ⟨original_widths_nonneg h hchain hshape hmin hmax hmm, ?_⟩
  intro i hi
  rw [cw_bars_length] at hi
  by_cases h1 : (sorted_values histogram).length = 1
  · simp only [cw_histogram_bars, if_pos h1]
    have hieq : i = 0 := by
      have := sorted_values_length histogram
      omega
    subst hieq
    have hb0 := sorted_values_getD_bounds hdom
      (show 0 < (sorted_values histogram).length by omega)
    have hab : 0 ≤ domain_max - domain_min := by linarith [hb0.1, hb0.2]
    show 0 ≤ (domain_max - domain_min) * (4 / 5)
    have := mul_nonneg hab (show (0 : ℚ) ≤ 4 / 5 by norm_num)
    linarith
  · have h0 : (sorted_values histogram).length ≠ 0 := by
      have := sorted_values_length histogram
      omega
    have h2 : 2 ≤ (sorted_values histogram).length := by omega
    rw [cw_bars_getD h1 (by rw [sorted_values_length]; exact hi)]
    exact cw_width_nonneg hnd hdom h2 (by rw [sorted_values_length]; exact hi)

/-- Witness for C9 at a concrete canonical histogram and sparse histogram. -/
theorem C9_widths_nonneg_witness :
    (∀ i, i < (original_histogram_bars ⟨[1, 2], [3, 4, 5], some 0, some 6⟩).length →
      0 ≤ ((original_histogram_bars ⟨[1, 2], [3, 4, 5], some 0, some 6⟩).getD i (0, 0)).2) ∧
    (∀ i, i < (cw_histogram_bars [(1, 5), (2, 6)] 0 4).length →
      0 ≤ ((cw_histogram_bars [(1, 5), (2, 6)] 0 4).getD i (0, 0)).2) :=
  C9_widths_nonneg ⟨[1, 2], [3, 4, 5], some 0, some 6⟩ [(1, 5), (2, 6)] 0 4
    (by norm_num [List.chain'_cons, List.chain'_singleton])
    (fun _ => by decide)
    (by intro m hm _; cases hm; decide)
    (by intro M hM _; cases hM; decide)
    (by intro m M hm hM; cases hm; cases hM; decide)
    (by decide)
    (by
      intro p hp
      simp only [List.mem_cons, List.not_mem_nil, or_false] at hp
      rcases hp with rfl | rfl <;> exact ⟨by norm_num, by norm_num⟩)

end HistogramMappings
